import Mathlib

/-!
Verification of the Sector3X offline geometry-build pipeline
(`AssetsBuild/generate_convex.py` and `AssetsBuild/generate_meshshape.py`)
against its natural-language specification.

The Python scripts are shallowly embedded: numpy arrays become `List`s,
`uint32` index values become `Nat` (hypotheses record the `< 2 ^ 32` type
invariant where the binary writers depend on it), fallible operations
(numpy reshape and fancy-indexing errors, `assert`, exceptions) become
`Option` / `Except`, and vertex positions are carried as opaque data
(the binary writers view a position as three 32-bit words: the float32 bit
patterns serialized by `struct.pack`).
-/

/-! ## Generic list helpers used by the embedding -/

/-- Sequence a fallible map over a list, stopping at the first failure
(the shape of a Python loop whose body may raise). -/
def mapO {α β : Type} (f : α → Option β) : List α → Option (List β)
  | [] => some []
  | x :: xs =>
    match f x with
    | none => none
    | some y =>
      match mapO f xs with
      | none => none
      | some ys => some (y :: ys)

/-- Concatenate the images of `f` over a list (`np.concatenate`-style). -/
def concatMapL {α β : Type} (f : α → List β) : List α → List β
  | [] => []
  | x :: xs => f x ++ concatMapL f xs

/-- `reshape(-1, 3)`: group a flat index list into triples.  A trailing
fragment of fewer than three entries is dropped; the embedding only uses
this under the guard `length % 3 = 0`, where numpy's reshape succeeds. -/
def chunk3 : List Nat → List (Nat × Nat × Nat)
  | a :: b :: c :: rest => (a, b, c) :: chunk3 rest
  | _ => []

/-- `reshape(-1)`: flatten a list of index triples. -/
def flat3 : List (Nat × Nat × Nat) → List Nat
  | [] => []
  | (a, b, c) :: rest => a :: b :: c :: flat3 rest

/-- `np.unique`: the sorted list of distinct values of a flat array. -/
def npUnique (l : List Nat) : List Nat :=
  (l.insertionSort (· ≤ ·)).dedup

theorem mapO_some_length {α β : Type} {f : α → Option β} :
    ∀ {l : List α} {ys : List β}, mapO f l = some ys → ys.length = l.length := by
  intro l
  induction l with
  | nil => intro ys h; simp only [mapO] at h; cases h; rfl
  | cons x xs ih =>
    intro ys h
    simp only [mapO] at h
    cases hfx : f x with
    | none => rw [hfx] at h; cases h
    | some y =>
      rw [hfx] at h
      cases hrec : mapO f xs with
      | none => rw [hrec] at h; cases h
      | some zs =>
        rw [hrec] at h
        cases h
        simp [ih hrec]

theorem mapO_eq_some_of_forall {α β : Type} {f : α → Option β} {g : α → β} :
    ∀ {l : List α}, (∀ x ∈ l, f x = some (g x)) → mapO f l = some (l.map g) := by
  intro l
  induction l with
  | nil => intro _; rfl
  | cons x xs ih =>
    intro h
    have hx : f x = some (g x) := h x (by simp)
    have hxs : mapO f xs = some (xs.map g) := ih fun a ha => h a (by simp [ha])
    simp [mapO, hx, hxs]

theorem mapO_some_filterMap {α β : Type} {f : α → Option β} :
    ∀ {l : List α} {ys : List β}, mapO f l = some ys → ys = l.filterMap f := by
  intro l
  induction l with
  | nil => intro ys h; simp only [mapO] at h; cases h; rfl
  | cons x xs ih =>
    intro ys h
    simp only [mapO] at h
    cases hfx : f x with
    | none => rw [hfx] at h; cases h
    | some y =>
      rw [hfx] at h
      cases hrec : mapO f xs with
      | none => rw [hrec] at h; cases h
      | some zs =>
        rw [hrec] at h
        cases h
        simp [List.filterMap_cons, hfx, ih hrec]

theorem mapO_some_mem {α β : Type} {f : α → Option β} :
    ∀ {l : List α} {ys : List β}, mapO f l = some ys → ∀ y ∈ ys, ∃ x ∈ l, f x = some y := by
  intro l
  induction l with
  | nil => intro ys h; simp only [mapO] at h; cases h; simp
  | cons x xs ih =>
    intro ys h
    simp only [mapO] at h
    cases hfx : f x with
    | none => rw [hfx] at h; cases h
    | some y =>
      rw [hfx] at h
      cases hrec : mapO f xs with
      | none => rw [hrec] at h; cases h
      | some zs =>
        rw [hrec] at h
        cases h
        intro b hb
        rcases List.mem_cons.1 hb with hb | hb
        · exact ⟨x, by simp, by rw [hfx, hb]⟩
        · rcases ih hrec b hb with ⟨a, ha, hfa⟩
          exact ⟨a, by simp [ha], hfa⟩

theorem mem_flat3 {x : Nat} :
    ∀ {fs : List (Nat × Nat × Nat)},
      x ∈ flat3 fs ↔ ∃ t ∈ fs, x = t.1 ∨ x = t.2.1 ∨ x = t.2.2 := by
  intro fs
  induction fs with
  | nil => simp [flat3]
  | cons t rest ih =>
    obtain ⟨a, b, c⟩ := t
    simp only [flat3, List.mem_cons, ih]
    constructor
    · rintro (h | h | h | ⟨t, ht, hx⟩)
      · exact ⟨(a, b, c), Or.inl rfl, Or.inl h⟩
      · exact ⟨(a, b, c), Or.inl rfl, Or.inr (Or.inl h)⟩
      · exact ⟨(a, b, c), Or.inl rfl, Or.inr (Or.inr h)⟩
      · exact ⟨t, Or.inr ht, hx⟩
    · rintro ⟨t, ht | ht, hx⟩
      · subst ht; tauto
      · exact Or.inr (Or.inr (Or.inr ⟨t, ht, hx⟩))

theorem mem_chunk3_sub {t : Nat × Nat × Nat} :
    ∀ {l : List Nat}, t ∈ chunk3 l → t.1 ∈ l ∧ t.2.1 ∈ l ∧ t.2.2 ∈ l := by
  intro l
  induction l using chunk3.induct with
  | case1 a b c rest ih =>
    intro ht
    simp only [chunk3, List.mem_cons] at ht
    rcases ht with ht | ht
    · subst ht; simp
    · have := ih ht
      simp only [List.mem_cons]
      tauto
  | case2 l h =>
    intro ht
    have : chunk3 l = [] := by
      cases l with
      | nil => rfl
      | cons a l' =>
        cases l' with
        | nil => rfl
        | cons b l'' =>
          cases l'' with
          | nil => rfl
          | cons c l''' => exact (h a b c l''' rfl).elim
    rw [this] at ht
    cases ht

theorem flat3_chunk3 : ∀ {l : List Nat}, l.length % 3 = 0 → flat3 (chunk3 l) = l := by
  intro l
  induction l using chunk3.induct with
  | case1 a b c rest ih =>
    intro h
    simp only [List.length_cons] at h
    have h' : rest.length % 3 = 0 := by omega
    simp [chunk3, flat3, ih h']
  | case2 l h =>
    intro hlen
    cases l with
    | nil => rfl
    | cons a l' =>
      cases l' with
      | nil => simp at hlen
      | cons b l'' =>
        cases l'' with
        | nil => simp at hlen
        | cons c l''' => exact (h a b c l''' rfl).elim

theorem flat3_length : ∀ {fs : List (Nat × Nat × Nat)}, (flat3 fs).length = 3 * fs.length := by
  intro fs
  induction fs with
  | nil => rfl
  | cons t rest ih =>
    obtain ⟨a, b, c⟩ := t
    simp [flat3, ih]
    omega

theorem chunk3_length_le : ∀ {l : List Nat}, 3 * (chunk3 l).length ≤ l.length := by
  intro l
  induction l using chunk3.induct with
  | case1 a b c rest ih => simp [chunk3]; omega
  | case2 l h =>
    have : chunk3 l = [] := by
      cases l with
      | nil => rfl
      | cons a l' =>
        cases l' with
        | nil => rfl
        | cons b l'' =>
          cases l'' with
          | nil => rfl
          | cons c l''' => exact (h a b c l''' rfl).elim
    simp [this]

theorem flat3_map_triple {g : Nat → Nat} :
    ∀ {fs : List (Nat × Nat × Nat)},
      flat3 (fs.map fun t => (g t.1, g t.2.1, g t.2.2)) = (flat3 fs).map g := by
  intro fs
  induction fs with
  | nil => rfl
  | cons t rest ih =>
    obtain ⟨a, b, c⟩ := t
    simp [flat3, ih]

theorem mem_npUnique {a : Nat} {l : List Nat} : a ∈ npUnique l ↔ a ∈ l := by
  unfold npUnique
  rw [List.mem_dedup]
  exact (List.perm_insertionSort (· ≤ ·) l).mem_iff

theorem nodup_npUnique (l : List Nat) : (npUnique l).Nodup :=
  List.nodup_dedup _

theorem sorted_le_npUnique (l : List Nat) : (npUnique l).Sorted (· ≤ ·) :=
  List.Pairwise.sublist (List.dedup_sublist _) (List.sorted_insertionSort (· ≤ ·) l)

theorem sorted_lt_npUnique (l : List Nat) : (npUnique l).Sorted (· < ·) :=
  (sorted_le_npUnique l).lt_of_le (nodup_npUnique l)

/-- `np.unique` of a list of values all below `n` is exactly the ascending
enumeration of the referenced values: `range n` filtered by membership. -/
theorem npUnique_eq_range_filter {l : List Nat} {n : Nat}
    (hb : ∀ x ∈ l, x < n) :
    npUnique l = (List.range n).filter fun i => decide (i ∈ l) := by
  have hnd₁ : (npUnique l).Nodup := nodup_npUnique l
  have hnd₂ : ((List.range n).filter fun i => decide (i ∈ l)).Nodup :=
    (List.nodup_range n).filter _
  have hmem : ∀ a, a ∈ npUnique l ↔ a ∈ (List.range n).filter fun i => decide (i ∈ l) := by
    intro a
    rw [mem_npUnique, List.mem_filter, List.mem_range]
    constructor
    · intro ha; exact ⟨hb a ha, by simpa using ha⟩
    · rintro ⟨_, ha⟩; simpa using ha
  have hperm : List.Perm (npUnique l) ((List.range n).filter fun i => decide (i ∈ l)) :=
    (List.perm_ext_iff_of_nodup hnd₁ hnd₂).2 hmem
  exact List.eq_of_perm_of_sorted hperm (sorted_le_npUnique l)
    (List.Pairwise.sublist (List.filter_sublist _)
      (List.sorted_lt_range n).le_of_lt)

/-! ## generate_convex.py — hull vertex clamping

Embedding of `clamp_hull_vertex_count` (src/AssetsBuild/generate_convex.py,
lines 38-95).  Vertex positions are an arbitrary type `P` (the function never
inspects a coordinate); triangle indices are `Nat` (numpy `uint32` values).
`none` models a raised Python exception: the `reshape(-1, 3)` ValueError when
the flat index array's length is not a multiple of 3, numpy IndexError on an
out-of-range fancy index, or the `assert (faces_mapped >= 0).all()` failing. -/

/-- Jolt's recommended ConvexHull vertex ceiling (line 35). -/
def MAX_VERTICES_PER_HULL : Nat := 256

/-- One lookup in the `remap` array (lines 85-86): `remap` has `vcount` slots
(reading past them is an IndexError, hence `none`), holds the position of `j`
in `keep` when `j` was kept (`remap[keep] = arange(len(keep))`; `keep` is
duplicate-free, being `np.unique` output), and `-1` otherwise. -/
def remapVal (vcount : Nat) (keep : List Nat) (j : Nat) : Option Int :=
  if j < vcount then
    some (if keep.contains j then (keep.indexOf j : Int) else -1)
  else none

/-- `points[keep]` (lines 82 and 92): numpy fancy indexing; an out-of-range
entry of `keep` is an IndexError. -/
def selectPts {P : Type} (points : List P) (keep : List Nat) : Option (List P) :=
  mapO (fun i => points[i]?) keep

/-- `remap[faces_kept]` (line 88): remap every index of the kept triangles. -/
def facesMappedOf (vcount : Nat) (keep : List Nat) (facesKept : List (Nat × Nat × Nat)) :
    Option (List Int) :=
  mapO (remapVal vcount keep) (flat3 facesKept)

/-- Triangle filter of line 75-76: all three corners lie in `keep`
(`np.isin(faces, keep)` then `np.all(mask, axis=1)`). -/
def triInKeep (keep : List Nat) (t : Nat × Nat × Nat) : Bool :=
  decide (t.1 ∈ keep ∧ t.2.1 ∈ keep ∧ t.2.2 ∈ keep)

/-- Lines 84-95: build the remap table (IndexError if a kept index is out of
range), map the kept triangles through it, `assert` no `-1` survived, and
gather `points[keep]`; the mapped indices are re-narrowed to `uint32`. -/
def remapStep {P : Type} (points : List P) (keep : List Nat)
    (facesKept : List (Nat × Nat × Nat)) : Option (List P × List Nat) :=
  if keep.all (· < points.length) then
    match facesMappedOf points.length keep facesKept with
    | none => none
    | some mapped =>
      if mapped.all (0 ≤ ·) then
        match selectPts points keep with
        | none => none
        | some newPts => some (newPts, mapped.map Int.toNat)
      else none
  else none

/-- `clamp_hull_vertex_count(points, faces_flat, max_vertices)` (lines 38-95). -/
def clamp_hull_vertex_count {P : Type} (points : List P) (faces_flat : List Nat)
    (max_vertices : Nat) : Option (List P × List Nat) :=
  let vcount := points.length
  if vcount ≤ max_vertices then
    some (points, faces_flat)
  else if faces_flat.length % 3 ≠ 0 then
    none
  else
    let faces := chunk3 faces_flat
    let used := npUnique faces_flat
    if used.length ≤ max_vertices then
      remapStep points used faces
    else
      let keep := used.take max_vertices
      let facesKept := faces.filter (triInKeep keep)
      if facesKept.isEmpty then
        match selectPts points keep with
        | none => none
        | some newPts => some (newPts, [])
      else
        remapStep points keep facesKept

theorem isSome_getElem? {P : Type} {l : List P} {i : Nat} (h : i < l.length) :
    l[i]?.isSome := by
  simp [List.getElem?_eq_getElem h]

theorem mapO_isSome_of_forall {α β : Type} {f : α → Option β} :
    ∀ {l : List α}, (∀ x ∈ l, (f x).isSome) → (mapO f l).isSome := by
  intro l
  induction l with
  | nil => intro _; simp [mapO]
  | cons x xs ih =>
    intro h
    have hx := h x (by simp)
    rcases Option.isSome_iff_exists.1 hx with ⟨y, hy⟩
    have hxs := ih fun a ha => h a (by simp [ha])
    rcases Option.isSome_iff_exists.1 hxs with ⟨ys, hys⟩
    simp [mapO, hy, hys]

theorem selectPts_some_length {P : Type} {points : List P} {keep : List Nat} {ps : List P}
    (h : selectPts points keep = some ps) : ps.length = keep.length :=
  mapO_some_length h

theorem selectPts_isSome {P : Type} {points : List P} {keep : List Nat}
    (h : ∀ j ∈ keep, j < points.length) : (selectPts points keep).isSome :=
  mapO_isSome_of_forall fun j hj => isSome_getElem? (h j hj)

/-- Every outcome of `remapStep`: the output vertex list has one entry per
kept index, and every remapped triangle index lies below it. -/
theorem remapStep_some {P : Type} {points : List P} {keep : List Nat}
    {facesKept : List (Nat × Nat × Nat)} {p' : List P} {f' : List Nat}
    (h : remapStep points keep facesKept = some (p', f')) :
    p'.length = keep.length ∧ ∀ i ∈ f', i < keep.length := by
  unfold remapStep at h
  split at h
  case isFalse => cases h
  case isTrue hall =>
    cases hmap : facesMappedOf points.length keep facesKept with
    | none => rw [hmap] at h; cases h
    | some mapped =>
      simp only [hmap] at h
      by_cases hnonneg : (mapped.all (0 ≤ ·)) = true
      case neg => rw [if_neg hnonneg] at h; cases h
      case pos =>
        rw [if_pos hnonneg] at h
        cases hsel : selectPts points keep with
        | none => simp only [hsel] at h; cases h
        | some newPts =>
          simp only [hsel, Option.some.injEq, Prod.mk.injEq] at h
          obtain ⟨hp, hf⟩ := h
          subst hp hf
          refine ⟨selectPts_some_length hsel, ?_⟩
          intro i hi
          rcases List.mem_map.1 hi with ⟨m, hm, hmi⟩
          have h0 : (0 : Int) ≤ m := by
            have := List.all_eq_true.1 hnonneg m hm
            simpa using this
          rcases mapO_some_mem hmap m hm with ⟨j, _, hj⟩
          unfold remapVal at hj
          split at hj
          case isFalse => cases hj
          case isTrue hjlt =>
            cases hj
            by_cases hjk : keep.contains j
            · have hlt : keep.indexOf j < keep.length :=
                List.indexOf_lt_length.mpr (List.elem_iff.1 hjk)
              rw [if_pos hjk] at h0
              subst hmi
              rw [if_pos hjk]
              simpa using hlt
            · rw [if_neg hjk] at h0
              omega

/-- When every kept index is a real vertex and every index of a kept triangle
was kept, `remapStep` succeeds and remaps each index to its rank in `keep`. -/
theorem remapStep_eq {P : Type} {points : List P} {keep : List Nat}
    {facesKept : List (Nat × Nat × Nat)}
    (hk : ∀ j ∈ keep, j < points.length)
    (hmem : ∀ j ∈ flat3 facesKept, j ∈ keep)
    {ps : List P} (hps : selectPts points keep = some ps) :
    remapStep points keep facesKept =
      some (ps, (flat3 facesKept).map fun j => keep.indexOf j) := by
  unfold remapStep
  rw [if_pos (by simpa [List.all_eq_true] using hk)]
  have hmap : facesMappedOf points.length keep facesKept =
      some ((flat3 facesKept).map fun j => (keep.indexOf j : Int)) := by
    apply mapO_eq_some_of_forall
    intro j hj
    unfold remapVal
    rw [if_pos (hk j (hmem j hj)), if_pos (List.elem_iff.2 (hmem j hj))]
  simp only [hmap]
  have hnonneg : (((flat3 facesKept).map fun j => (keep.indexOf j : Int)).all (0 ≤ ·)) = true := by
    simp only [List.all_eq_true]
    intro m hm
    rcases List.mem_map.1 hm with ⟨j, _, hj⟩
    subst hj
    simp
  rw [if_pos hnonneg]
  simp [hps, List.map_map, Function.comp]

theorem mem_flat3_chunk3 {j : Nat} {l : List Nat} (h : j ∈ flat3 (chunk3 l)) : j ∈ l := by
  rcases mem_flat3.1 h with ⟨t, ht, hx⟩
  have := mem_chunk3_sub ht
  rcases hx with hx | hx | hx <;> subst hx <;> tauto

theorem mem_flat3_filter_keep {j : Nat} {keep : List Nat} {fs : List (Nat × Nat × Nat)}
    (h : j ∈ flat3 (fs.filter (triInKeep keep))) : j ∈ keep := by
  rcases mem_flat3.1 h with ⟨t, ht, hx⟩
  have := (List.mem_filter.1 ht).2
  unfold triInKeep at this
  have hk := of_decide_eq_true this
  rcases hx with hx | hx | hx <;> subst hx <;> tauto

theorem mem_flat3_filter_sub {j : Nat} {p : Nat × Nat × Nat → Bool}
    {fs : List (Nat × Nat × Nat)} (h : j ∈ flat3 (fs.filter p)) : j ∈ flat3 fs := by
  rcases mem_flat3.1 h with ⟨t, ht, hx⟩
  exact mem_flat3.2 ⟨t, (List.mem_filter.1 ht).1, hx⟩

theorem facesMappedOf_nonneg {vcount : Nat} {keep : List Nat}
    {fk : List (Nat × Nat × Nat)} (hmem : ∀ j ∈ flat3 fk, j ∈ keep) :
    ∀ m, facesMappedOf vcount keep fk = some m → m.all (0 ≤ ·) = true := by
  intro m hm
  rw [List.all_eq_true]
  intro x hx
  rcases mapO_some_mem hm x hx with ⟨j, hj, hval⟩
  unfold remapVal at hval
  split at hval
  case isFalse => cases hval
  case isTrue =>
    cases hval
    rw [if_pos (List.elem_iff.2 (hmem j hj))]
    simp

/-- Under the Mesh invariant, `clamp_hull_vertex_count` always returns a
result (no exception path is reachable). -/
theorem clamp_isSome {P : Type} (points : List P) (ff : List Nat)
    (h3 : ff.length % 3 = 0)
    (hInv : ∀ i ∈ ff, i < points.length) :
    (clamp_hull_vertex_count points ff MAX_VERTICES_PER_HULL).isSome := by
  simp only [clamp_hull_vertex_count]
  by_cases h1 : points.length ≤ MAX_VERTICES_PER_HULL
  · simp [h1]
  · rw [if_neg h1, if_neg (by simpa using h3)]
    by_cases h2 : (npUnique ff).length ≤ MAX_VERTICES_PER_HULL
    · rw [if_pos h2]
      have hk : ∀ j ∈ npUnique ff, j < points.length := fun j hj =>
        hInv j (mem_npUnique.1 hj)
      rcases Option.isSome_iff_exists.1 (selectPts_isSome hk) with ⟨ps, hps⟩
      rw [remapStep_eq hk (fun j hj => mem_npUnique.2 (mem_flat3_chunk3 hj)) hps]
      rfl
    · rw [if_neg h2]
      have hk : ∀ j ∈ (npUnique ff).take MAX_VERTICES_PER_HULL, j < points.length :=
        fun j hj => hInv j (mem_npUnique.1 (List.mem_of_mem_take hj))
      rcases Option.isSome_iff_exists.1 (selectPts_isSome hk) with ⟨ps, hps⟩
      by_cases hE : ((chunk3 ff).filter
          (triInKeep ((npUnique ff).take MAX_VERTICES_PER_HULL))).isEmpty
      · simp [hE, hps]
      · rw [if_neg hE, remapStep_eq hk (fun j hj => mem_flat3_filter_keep hj) hps]
        rfl

/-- C10: for every hull input whose triangle indices are all strictly below
the vertex count (the Mesh invariant, including the index array being a whole
number of triples), no exception path of `clamp_hull_vertex_count` is
reachable, and on both branches that reach the `assert` of line 90 every
remapped index is non-negative: each surviving triangle references only kept
vertices, so the remap table never yields `-1` for it. -/
theorem clamp_assert_unreachable_C10 {P : Type} (points : List P) (ff : List Nat)
    (h3 : ff.length % 3 = 0)
    (hInv : ∀ i ∈ ff, i < points.length) :
    (clamp_hull_vertex_count points ff MAX_VERTICES_PER_HULL).isSome ∧
    (∀ m, facesMappedOf points.length (npUnique ff) (chunk3 ff) = some m →
      m.all (0 ≤ ·) = true) ∧
    (∀ m, facesMappedOf points.length ((npUnique ff).take MAX_VERTICES_PER_HULL)
        ((chunk3 ff).filter (triInKeep ((npUnique ff).take MAX_VERTICES_PER_HULL))) = some m →
      m.all (0 ≤ ·) = true) := by
  refine ⟨clamp_isSome points ff h3 hInv, ?_, ?_⟩
  · exact facesMappedOf_nonneg fun j hj => mem_npUnique.2 (mem_flat3_chunk3 hj)
  · exact facesMappedOf_nonneg fun j hj => mem_flat3_filter_keep hj

set_option maxRecDepth 4096 in
/-- Witness for C10 at a concrete hull: 300 vertices, one triangle. -/
theorem clamp_assert_unreachable_C10_witness :
    ((0 :: 1 :: 2 :: List.nil).length % 3 = 0) ∧
    (clamp_hull_vertex_count (List.range 300) [0, 1, 2] MAX_VERTICES_PER_HULL).isSome :=
  ⟨by decide,
    (clamp_assert_unreachable_C10 (List.range 300) [0, 1, 2] (by decide)
      (by decide)).1⟩

/-- C1: for every hull whose triangle indices all lie below the vertex count,
any result `(points', faces')` of `clamp_hull_vertex_count` has at most 256
vertices, and every index of `faces'` is at least 0 (indices are `Nat`,
mirroring numpy `uint32`) and strictly below the new vertex count. -/
theorem clamp_invariant_C1 {P : Type} (points : List P) (ff : List Nat)
    (hInv : ∀ i ∈ ff, i < points.length)
    (p' : List P) (f' : List Nat)
    (hres : clamp_hull_vertex_count points ff MAX_VERTICES_PER_HULL = some (p', f')) :
    p'.length ≤ MAX_VERTICES_PER_HULL ∧ ∀ i ∈ f', 0 ≤ i ∧ i < p'.length := by
  simp only [clamp_hull_vertex_count] at hres
  by_cases h1 : points.length ≤ MAX_VERTICES_PER_HULL
  · rw [if_pos h1] at hres
    injection hres with hres
    injection hres with hp hf
    subst hp hf
    exact ⟨h1, fun i hi => ⟨Nat.zero_le i, hInv i hi⟩⟩
  · rw [if_neg h1] at hres
    by_cases h3 : ff.length % 3 = 0
    · rw [if_neg (by simpa using h3)] at hres
      by_cases h2 : (npUnique ff).length ≤ MAX_VERTICES_PER_HULL
      · rw [if_pos h2] at hres
        have := remapStep_some hres
        exact ⟨this.1 ▸ h2, fun i hi => ⟨Nat.zero_le i, this.1 ▸ this.2 i hi⟩⟩
      · rw [if_neg h2] at hres
        by_cases hE : ((chunk3 ff).filter
            (triInKeep ((npUnique ff).take MAX_VERTICES_PER_HULL))).isEmpty
        · rw [if_pos hE] at hres
          cases hsel : selectPts points ((npUnique ff).take MAX_VERTICES_PER_HULL) with
          | none => rw [hsel] at hres; cases hres
          | some ps =>
            rw [hsel] at hres
            injection hres with hres
            injection hres with hp hf
            subst hp hf
            refine ⟨?_, by simp⟩
            rw [selectPts_some_length hsel, List.length_take]
            omega
        · rw [if_neg hE] at hres
          have := remapStep_some hres
          have hkl : ((npUnique ff).take MAX_VERTICES_PER_HULL).length ≤
              MAX_VERTICES_PER_HULL := by
            rw [List.length_take]; omega
          exact ⟨this.1 ▸ hkl, fun i hi => ⟨Nat.zero_le i, this.1 ▸ this.2 i hi⟩⟩
    · rw [if_pos (by simpa using h3)] at hres
      cases hres

set_option maxRecDepth 4096 in
/-- Witness for C1: the 300-vertex hull with a single triangle `(0, 1, 2)`. -/
theorem clamp_invariant_C1_witness :
    (∀ i ∈ [0, 1, 2], i < (List.range 300).length) ∧
    ∃ p' f', clamp_hull_vertex_count (List.range 300) [0, 1, 2] MAX_VERTICES_PER_HULL =
        some (p', f') ∧ p'.length ≤ MAX_VERTICES_PER_HULL :=
  ⟨by decide, ⟨_, _, rfl,
    (clamp_invariant_C1 (List.range 300) [0, 1, 2] (by decide) _ _ rfl).1⟩⟩

/-- C9: clamping a hull already within the 256-vertex budget returns the
vertex and index arrays unchanged. -/
theorem clamp_idempotent_C9 {P : Type} (points : List P) (ff : List Nat)
    (h : points.length ≤ MAX_VERTICES_PER_HULL) :
    clamp_hull_vertex_count points ff MAX_VERTICES_PER_HULL = some (points, ff) := by
  simp [clamp_hull_vertex_count, h]

/-- Witness for C9 at a concrete in-budget hull. -/
theorem clamp_idempotent_C9_witness :
    (List.range 10).length ≤ MAX_VERTICES_PER_HULL ∧
    clamp_hull_vertex_count (List.range 10) [0, 1, 2, 2, 1, 0] MAX_VERTICES_PER_HULL =
      some (List.range 10, [0, 1, 2, 2, 1, 0]) :=
  ⟨by decide, clamp_idempotent_C9 _ _ (by decide)⟩

/-! ## C2 — spec-side description of the truncation step (§4.5 step 3)

The following definitions follow the words of the spec, not the code, so that
the truncation branch of `clamp_hull_vertex_count` can be proved to refine
them: "keep the first `budget` referenced vertices (by original index order),
discard any triangle not fully contained in the kept set, and remap surviving
triangle indices.  If no triangle survives, return the kept vertices with an
empty index array." -/

/-- The triangle-referenced vertices, in ascending original-index order. -/
def referencedAsc (vcount : Nat) (ff : List Nat) : List Nat :=
  (List.range vcount).filter fun i => decide (i ∈ ff)

/-- The first `budget` referenced vertices. -/
def specKeep (vcount budget : Nat) (ff : List Nat) : List Nat :=
  (referencedAsc vcount ff).take budget

/-- The triangles fully contained in the kept set. -/
def specSurvivors (keep : List Nat) (ff : List Nat) : List (Nat × Nat × Nat) :=
  (chunk3 ff).filter fun t => decide (t.1 ∈ keep ∧ t.2.1 ∈ keep ∧ t.2.2 ∈ keep)

/-- The surviving triangles with each index remapped to its rank in the kept
list (the compacted range), re-flattened. -/
def specRemapped (keep : List Nat) (ff : List Nat) : List Nat :=
  flat3 ((specSurvivors keep ff).map fun t =>
    (keep.indexOf t.1, keep.indexOf t.2.1, keep.indexOf t.2.2))

/-- C2: on a hull with more than 256 vertices whose referenced-vertex set also
exceeds 256, `clamp_hull_vertex_count` keeps exactly the first 256 referenced
vertices in ascending original-index order, discards every triangle not fully
contained in the kept set, remaps the survivors into the compacted range, and
returns an empty index array when no triangle survives. -/
theorem clamp_truncation_C2 {P : Type} (points : List P) (ff : List Nat)
    (h3 : ff.length % 3 = 0)
    (hInv : ∀ i ∈ ff, i < points.length)
    (hBig : MAX_VERTICES_PER_HULL < points.length)
    (hUsed : MAX_VERTICES_PER_HULL < (referencedAsc points.length ff).length) :
    clamp_hull_vertex_count points ff MAX_VERTICES_PER_HULL =
      some ((specKeep points.length MAX_VERTICES_PER_HULL ff).filterMap
              (fun i => points[i]?),
            specRemapped (specKeep points.length MAX_VERTICES_PER_HULL ff) ff) ∧
    (specKeep points.length MAX_VERTICES_PER_HULL ff).length = MAX_VERTICES_PER_HULL ∧
    (specKeep points.length MAX_VERTICES_PER_HULL ff).Sorted (· < ·) ∧
    (specSurvivors (specKeep points.length MAX_VERTICES_PER_HULL ff) ff = [] →
      specRemapped (specKeep points.length MAX_VERTICES_PER_HULL ff) ff = []) := by
  have hEq : npUnique ff = referencedAsc points.length ff :=
    npUnique_eq_range_filter hInv
  set keep := specKeep points.length MAX_VERTICES_PER_HULL ff with hkeep
  have hkeepEq : (npUnique ff).take MAX_VERTICES_PER_HULL = keep := by
    rw [hEq]; rfl
  have hkmem : ∀ j ∈ keep, j ∈ ff := by
    intro j hj
    rw [← hkeepEq] at hj
    simpa using mem_npUnique.1 (List.mem_of_mem_take hj)
  have hk : ∀ j ∈ keep, j < points.length := fun j hj => hInv j (hkmem j hj)
  have hSurv : ∀ fkeep : List Nat,
      (chunk3 ff).filter (triInKeep fkeep) = specSurvivors fkeep ff := by
    intro fkeep; rfl
  rcases Option.isSome_iff_exists.1 (selectPts_isSome hk) with ⟨ps, hps⟩
  have hpsFM : ps = keep.filterMap fun i => points[i]? := mapO_some_filterMap hps
  have hlen : keep.length = MAX_VERTICES_PER_HULL := by
    rw [hkeep, specKeep, List.length_take]
    omega
  have hsorted : keep.Sorted (· < ·) := by
    rw [hkeep, specKeep, referencedAsc]
    exact List.Pairwise.sublist
      ((List.take_sublist _ _).trans (List.filter_sublist _))
      (List.sorted_lt_range points.length)
  have hmain : clamp_hull_vertex_count points ff MAX_VERTICES_PER_HULL =
      some (ps, specRemapped keep ff) := by
    simp only [clamp_hull_vertex_count]
    rw [if_neg (by omega), if_neg (by simpa using h3), if_neg (by rw [hEq]; omega), hkeepEq]
    by_cases hE : ((chunk3 ff).filter (triInKeep keep)).isEmpty
    · rw [if_pos hE, hps]
      have hEnil : specSurvivors keep ff = [] := by
        rw [← hSurv]
        exact List.isEmpty_iff.1 hE
      rw [specRemapped, hEnil]
      rfl
    · rw [if_neg hE,
        remapStep_eq hk (fun j hj => mem_flat3_filter_keep hj) hps]
      rw [specRemapped, ← hSurv]
      exact congrArg (fun x => (some (ps, x) : Option (List P × List Nat)))
        flat3_map_triple.symm
  refine ⟨?_, hlen, hsorted, ?_⟩
  · rw [hmain, hpsFM]
  · intro hnil
    rw [specRemapped, hnil]
    rfl

set_option maxRecDepth 8192 in
/-- Witness for C2: a hull with 258 vertices, all referenced by 86 triangles. -/
theorem clamp_truncation_C2_witness :
    MAX_VERTICES_PER_HULL <
        (referencedAsc (List.range 258).length (List.range 258)).length ∧
    ∃ p' f', clamp_hull_vertex_count (List.range 258) (List.range 258)
        MAX_VERTICES_PER_HULL = some (p', f') :=
  ⟨by decide, ⟨_, _,
    (clamp_truncation_C2 (List.range 258) (List.range 258) (by decide) (by decide)
      (by decide) (by decide)).1⟩⟩

/-! ## generate_convex.py — hull selection (lines 168-171)

`pick_top_hulls` sorts with Python's `sorted(key=vertex count, reverse=True)`.
CPython's sort is stable, and `reverse=True` preserves stability, so the
result is the unique stable descending arrangement by key; `insertDescBy`
below realizes it: each element is inserted before the first element of the
already-sorted tail whose key is `≤` its own, so an earlier element precedes
every equal-keyed later one. -/

/-- Insert `x` into `l` before the first element whose key is `≤ vc x`. -/
def insertDescBy {α : Type} (vc : α → Nat) (x : α) : List α → List α
  | [] => [x]
  | y :: ys => if vc y ≤ vc x then x :: y :: ys else y :: insertDescBy vc x ys

/-- Stable sort by key, descending (Python `sorted(key=vc, reverse=True)`). -/
def sortDescBy {α : Type} (vc : α → Nat) : List α → List α
  | [] => []
  | x :: xs => insertDescBy vc x (sortDescBy vc xs)

/-- The key used at line 170: the hull's vertex count (`hf[0].shape[0]`),
i.e. the raw decomposition output's count, before any clamping. -/
def hullVC {P : Type} (hf : List P × List Nat) : Nat := hf.1.length

/-- `pick_top_hulls(outputs, max_hulls)` (lines 168-171). -/
def pick_top_hulls {P : Type} (outputs : List (List P × List Nat)) (max_hulls : Nat) :
    List (List P × List Nat) :=
  (sortDescBy hullVC outputs).take max_hulls

theorem insertDescBy_perm {α : Type} (vc : α → Nat) (x : α) :
    ∀ l : List α, List.Perm (insertDescBy vc x l) (x :: l) := by
  intro l
  induction l with
  | nil => simp [insertDescBy]
  | cons y ys ih =>
    by_cases h : vc y ≤ vc x
    · simp [insertDescBy, h]
    · rw [insertDescBy, if_neg h]
      exact (List.Perm.cons y ih).trans (List.Perm.swap x y ys)

theorem sortDescBy_perm {α : Type} (vc : α → Nat) :
    ∀ l : List α, List.Perm (sortDescBy vc l) l := by
  intro l
  induction l with
  | nil => simp [sortDescBy]
  | cons x xs ih =>
    exact (insertDescBy_perm vc x (sortDescBy vc xs)).trans (List.Perm.cons x ih)

theorem insertDescBy_sorted {α : Type} (vc : α → Nat) (x : α) :
    ∀ {l : List α}, l.Pairwise (fun a b => vc b ≤ vc a) →
      (insertDescBy vc x l).Pairwise (fun a b => vc b ≤ vc a) := by
  intro l
  induction l with
  | nil => intro _; simp [insertDescBy]
  | cons y ys ih =>
    intro hp
    rcases List.pairwise_cons.1 hp with ⟨hy, hys⟩
    by_cases h : vc y ≤ vc x
    · rw [insertDescBy, if_pos h]
      refine List.pairwise_cons.2 ⟨?_, hp⟩
      intro b hb
      rcases List.mem_cons.1 hb with hb | hb
      · subst hb; exact h
      · exact (hy b hb).trans h
    · rw [insertDescBy, if_neg h]
      refine List.pairwise_cons.2 ⟨?_, ih hys⟩
      intro b hb
      have hb' := (insertDescBy_perm vc x ys).mem_iff.1 hb
      rcases List.mem_cons.1 hb' with hb' | hb'
      · subst hb'; omega
      · exact hy b hb'

theorem sortDescBy_sorted {α : Type} (vc : α → Nat) :
    ∀ l : List α, (sortDescBy vc l).Pairwise (fun a b => vc b ≤ vc a) := by
  intro l
  induction l with
  | nil => simp [sortDescBy]
  | cons x xs ih => exact insertDescBy_sorted vc x ih

theorem insertDescBy_filter_eq {α : Type} (vc : α → Nat) (x : α) (v : Nat)
    (hx : vc x = v) :
    ∀ l : List α, (insertDescBy vc x l).filter (fun a => vc a == v) =
      x :: l.filter (fun a => vc a == v) := by
  intro l
  induction l with
  | nil => simp [insertDescBy, List.filter, hx]
  | cons y ys ih =>
    by_cases h : vc y ≤ vc x
    · rw [insertDescBy, if_pos h]
      simp [List.filter_cons, hx]
    · rw [insertDescBy, if_neg h]
      have hyv : (vc y == v) = false := by
        simp only [beq_eq_false_iff_ne]
        omega
      simp [List.filter_cons, hyv, ih]

theorem insertDescBy_filter_ne {α : Type} (vc : α → Nat) (x : α) (v : Nat)
    (hx : vc x ≠ v) :
    ∀ l : List α, (insertDescBy vc x l).filter (fun a => vc a == v) =
      l.filter (fun a => vc a == v) := by
  intro l
  induction l with
  | nil =>
    have hxv : (vc x == v) = false := by simpa using hx
    simp [insertDescBy, List.filter, hxv]
  | cons y ys ih =>
    by_cases h : vc y ≤ vc x
    · rw [insertDescBy, if_pos h]
      simp [List.filter_cons, hx]
    · rw [insertDescBy, if_neg h]
      simp [List.filter_cons, ih]

/-- Stability: the elements of any fixed key keep their original relative
order through the sort. -/
theorem sortDescBy_stable {α : Type} (vc : α → Nat) (v : Nat) :
    ∀ l : List α, (sortDescBy vc l).filter (fun a => vc a == v) =
      l.filter (fun a => vc a == v) := by
  intro l
  induction l with
  | nil => rfl
  | cons x xs ih =>
    by_cases hx : vc x = v
    · rw [sortDescBy, insertDescBy_filter_eq vc x v hx, ih, List.filter_cons,
        if_pos (by simpa using hx)]
    · rw [sortDescBy, insertDescBy_filter_ne vc x v hx, ih, List.filter_cons,
        if_neg (by simpa using hx)]

/-- Two descending-sorted lists with identical per-key filters are equal:
the stable descending arrangement is unique. -/
theorem sortedDesc_filter_ext {α : Type} (vc : α → Nat) :
    ∀ s t : List α, s.Pairwise (fun a b => vc b ≤ vc a) →
      t.Pairwise (fun a b => vc b ≤ vc a) →
      (∀ v, s.filter (fun a => vc a == v) = t.filter (fun a => vc a == v)) →
      s = t := by
  intro s
  induction s with
  | nil =>
    intro t _ _ hf
    cases t with
    | nil => rfl
    | cons b t' =>
      have := hf (vc b)
      rw [List.filter_cons, if_pos (by simp)] at this
      simp at this
  | cons a s' ih =>
    intro t hs ht hf
    cases t with
    | nil =>
      have := hf (vc a)
      rw [List.filter_cons, if_pos (by simp)] at this
      simp at this
    | cons b t' =>
      rcases List.pairwise_cons.1 hs with ⟨hsa, hs'⟩
      rcases List.pairwise_cons.1 ht with ⟨htb, ht'⟩
      have hab : vc a = vc b := by
        have h1 := hf (vc a)
        rw [List.filter_cons, if_pos (by simp)] at h1
        have hmem : a ∈ (b :: t').filter (fun x => vc x == vc a) := by
          rw [← h1]; simp
        have h2 := List.mem_filter.1 hmem
        have hle1 : vc a ≤ vc b := by
          rcases List.mem_cons.1 h2.1 with h | h
          · subst h; rfl
          · have := htb a h
            omega
        have h1' := hf (vc b)
        rw [show ((b :: t').filter fun x => vc x == vc b) =
            b :: (t'.filter fun x => vc x == vc b) from by
          rw [List.filter_cons, if_pos (by simp)]] at h1'
        have hmemb : b ∈ (a :: s').filter (fun x => vc x == vc b) := by
          rw [h1']; simp
        have h3 := List.mem_filter.1 hmemb
        have hle2 : vc b ≤ vc a := by
          rcases List.mem_cons.1 h3.1 with h | h
          · subst h; rfl
          · have := hsa b h
            omega
        omega
      have hstep := hf (vc a)
      rw [List.filter_cons, if_pos (by simp), List.filter_cons,
        if_pos (by simp [hab])] at hstep
      have hba : a = b := by
        injection hstep
      subst hba
      have htails : ∀ v, s'.filter (fun x => vc x == v) = t'.filter (fun x => vc x == v) := by
        intro v
        by_cases hv : vc a = v
        · subst hv
          injection hstep
        · have := hf v
          rw [List.filter_cons, if_neg (by simpa using hv), List.filter_cons,
            if_neg (by simpa using hv)] at this
          exact this
      rw [ih t' hs' ht' htails]

/-- The three hulls of the spec's selector-stability example: vertex counts
50, 80, 50, the two 50-vertex hulls distinguished by their index payload. -/
def exHull50a : List Nat × List Nat := (List.replicate 50 0, [0])

def exHull80 : List Nat × List Nat := (List.replicate 80 0, [])

def exHull50b : List Nat × List Nat := (List.replicate 50 0, [1])

/-- C5: `pick_top_hulls` returns the first K of the hull list sorted by
vertex count descending under a stable ordering — the sort is a permutation,
descending on the raw (pre-clamp) vertex counts, preserves the relative order
of equal-count hulls, and is the unique such arrangement; on vertex counts
`[50, 80, 50]` with K = 2 it selects the 80-vertex hull then the first
50-vertex hull. -/
theorem pick_top_hulls_C5 :
    (∀ (P : Type) (hulls : List (List P × List Nat)) (k : Nat),
      pick_top_hulls hulls k = (sortDescBy hullVC hulls).take k ∧
      List.Perm (sortDescBy hullVC hulls) hulls ∧
      (sortDescBy hullVC hulls).Pairwise (fun a b => hullVC b ≤ hullVC a) ∧
      (∀ v, (sortDescBy hullVC hulls).filter (fun a => hullVC a == v) =
        hulls.filter (fun a => hullVC a == v)) ∧
      (∀ s, s.Pairwise (fun a b => hullVC b ≤ hullVC a) →
        (∀ v, s.filter (fun a => hullVC a == v) =
          hulls.filter (fun a => hullVC a == v)) →
        s = sortDescBy hullVC hulls)) ∧
    pick_top_hulls [exHull50a, exHull80, exHull50b] 2 = [exHull80, exHull50a] := by
  refine ⟨?_, ?_⟩
  · intro P hulls k
    refine ⟨rfl, sortDescBy_perm _ _, sortDescBy_sorted _ _,
      fun v => sortDescBy_stable _ v _, ?_⟩
    intro s hsort hfil
    exact sortedDesc_filter_ext hullVC s (sortDescBy hullVC hulls) hsort
      (sortDescBy_sorted _ _)
      (fun v => (hfil v).trans (sortDescBy_stable _ v _).symm)
  · rfl

/-- Witness exercising C5's uniqueness conjunct at the concrete example. -/
theorem pick_top_hulls_C5_witness :
    [exHull80, exHull50a, exHull50b] =
      sortDescBy hullVC [exHull50a, exHull80, exHull50b] :=
  (pick_top_hulls_C5.1 Nat [exHull50a, exHull80, exHull50b] 2).2.2.2.2
    [exHull80, exHull50a, exHull50b]
    (by
      refine List.pairwise_cons.2 ⟨?_, List.pairwise_cons.2 ⟨?_,
        List.pairwise_cons.2 ⟨?_, List.Pairwise.nil⟩⟩⟩
      · intro b hb
        fin_cases hb <;> decide
      · intro b hb
        fin_cases hb <;> decide
      · intro b hb
        cases hb)
    (by
      intro v
      have h80 : hullVC exHull80 = 80 := by decide
      have h50a : hullVC exHull50a = 50 := by decide
      have h50b : hullVC exHull50b = 50 := by decide
      simp only [List.filter_cons, List.filter_nil, h80, h50a, h50b]
      by_cases hv : (50 == v) = true
      · have hv80 : (80 == v) = false := by
          rw [beq_iff_eq] at hv
          subst hv
          decide
        simp [hv, hv80]
      · by_cases hv80 : (80 == v) = true
        · simp [hv, hv80]
        · simp [hv, hv80])

/-! ## Pipeline driver loop (generate_convex.py lines 253-261,
generate_meshshape.py lines 264-271)

Both `main` functions walk the discovered files and call
`process_one_model(src)` in a plain `for` loop with no `try`/`except`
anywhere around the call (nor inside `process_one_model`), so a Python
exception raised while processing one file propagates out of the loop and
terminates the run.  `driver_walk` embeds the loop: `proc f` is the outcome
of processing file `f` (`Except.error` = an uncaught exception); the result
is the list of files whose processing was started, paired with the
propagated exception, if any. -/

def driver_walk {α ε : Type} (proc : α → Except ε Unit) : List α → List α × Option ε
  | [] => ([], none)
  | f :: rest =>
    match proc f with
    | Except.ok _ =>
      let r := driver_walk proc rest
      (f :: r.1, r.2)
    | Except.error e => ([f], some e)

/-- A per-file processor for which file `0` raises and every other file
succeeds (e.g. file `0` is an unparseable source model). -/
def procFailsOnZero : Nat → Except Unit Unit :=
  fun n => if n = 0 then Except.error () else Except.ok ()

/-- Counterexample to C4: with two discovered files where the first raises
during processing, the driver never reaches the second file — the batch is
halted, contradicting "the driver proceeds to process every remaining
discovered file". -/
theorem driver_halts_counterexample_C4 :
    1 ∉ (driver_walk procFailsOnZero [0, 1]).1 ∧
    (driver_walk procFailsOnZero [0, 1]).1 ≠ [0, 1] := by
  decide

/-- C4 (amended): an uncaught per-file error halts the batch.  Files before
the failing one are processed normally; the failing file's processing is
aborted and no later discovered file is processed, and the exception
propagates out of the driver (a non-zero process exit). -/
theorem driver_halts_C4 {α ε : Type} (proc : α → Except ε Unit) (e : ε) :
    ∀ (pre : List α) (f : α) (post : List α),
      (∀ g ∈ pre, proc g = Except.ok ()) →
      proc f = Except.error e →
      driver_walk proc (pre ++ f :: post) = (pre ++ [f], some e) := by
  intro pre
  induction pre with
  | nil =>
    intro f post _ hf
    simp [driver_walk, hf]
  | cons g pre' ih =>
    intro f post hpre hf
    have hg : proc g = Except.ok () := hpre g (by simp)
    have hrec := ih f post (fun a ha => hpre a (by simp [ha])) hf
    simp [driver_walk, hg, hrec]

/-- Witness for the amended C4: one good file, then the failing one, then a
file that is never reached. -/
theorem driver_halts_C4_witness :
    (∀ g ∈ [5], procFailsOnZero g = Except.ok ()) ∧
    driver_walk procFailsOnZero [5, 0, 7] = ([5, 0], some ()) := by
  have hpre : ∀ g ∈ [5], procFailsOnZero g = Except.ok () := by
    intro g hg
    fin_cases hg
    rfl
  exact ⟨hpre, driver_halts_C4 procFailsOnZero () [5] 0 [7] hpre rfl⟩

/-! ## Staleness gate (generate_convex.py lines 220-224,
generate_meshshape.py lines 240-243)

`process_one_model` first compares timestamps: when the destination artifact
exists and `dst.stat().st_mtime >= src.stat().st_mtime` it returns before
doing any work (no write).  Otherwise it proceeds and, if the build yields
data, writes the artifact.  Modification times are Python floats, modeled as
`ℚ`; `dstMtime = none` models an absent artifact; the `build` argument is
whatever the rebuild would write, so the result is `none` exactly when the
gate skips the file without writing. -/

def process_one_model {β : Type} (dstMtime : Option ℚ) (srcMtime : ℚ) (build : β) :
    Option β :=
  match dstMtime with
  | some d => if srcMtime ≤ d then none else some build
  | none => some build

/-- C8: if the artifact exists with modification time at least the source's,
no write happens and the file is skipped; if the source is strictly newer, or
the artifact is absent, a rebuild occurs. -/
theorem staleness_gate_C8 {β : Type} (d srcM : ℚ) (build : β) :
    (srcM ≤ d → process_one_model (some d) srcM build = none) ∧
    (d < srcM → process_one_model (some d) srcM build = some build) ∧
    process_one_model none srcM build = some build := by
  refine ⟨fun h => ?_, fun h => ?_, rfl⟩
  · simp [process_one_model, h]
  · simp [process_one_model, not_le.2 h]

/-- Witness for C8: a fresh artifact is skipped, a stale one is rebuilt. -/
theorem staleness_gate_C8_witness :
    ((1 : ℚ) ≤ 2 ∧ process_one_model (some 2) 1 37 = none) ∧
    ((1 : ℚ) < 2 ∧ process_one_model (some 1) 2 37 = some 37) :=
  ⟨⟨by norm_num, (staleness_gate_C8 2 1 37).1 (by norm_num)⟩,
    ⟨by norm_num, (staleness_gate_C8 1 2 37).2.1 (by norm_num)⟩⟩

/-! ## generate_meshshape.py — simplification target (lines 34-39, 124-137)

`decide_target_triangles` computes `int(orig_triangles * 0.6)` (Debug) or
`int(orig_triangles * 0.25)` (Release).  Python's `int()` truncates toward
zero — it does not round — so the targets are floors, embedded as `Nat`
division (`orig * 3 / 5` and `orig / 4`; for the triangle counts involved
the double-precision products floor to the same values as the exact
rationals: `0.25` is exact, and the relative error of the stored `0.6` is
far too small to pull a product across an integer boundary). -/

def TARGET_TRIS_DEBUG_MAX : Nat := 8000

def TARGET_TRIS_RELEASE_MAX : Nat := 3000

def TARGET_TRIS_RELEASE_MIN : Nat := 500

/-- Build profile: the `--config` flag, lowered (`Debug` / `Release`). -/
inductive Cfg : Type
  | debug : Cfg
  | release : Cfg

/-- `decide_target_triangles(orig_triangles)` (lines 124-137). -/
def decide_target_triangles (cfg : Cfg) (orig_triangles : Nat) : Nat :=
  match cfg with
  | Cfg.debug =>
    let target := orig_triangles * 3 / 5
    max 1 (min target TARGET_TRIS_DEBUG_MAX)
  | Cfg.release =>
    let target := orig_triangles / 4
    max 1 (max TARGET_TRIS_RELEASE_MIN (min target TARGET_TRIS_RELEASE_MAX))

/-! Spec-side formulas for C3, from the spec's words: `clamp(round(origTris ×
0.6), 1, 8000)` and `max(1, clamp(round(origTris × 0.25), 500, 3000))`,
where `round` is round-half-up to the nearest integer (for multiples of 1/5
no tie ever occurs, so any round-to-nearest convention agrees on the Debug
formula). -/

/-- Round `num / den` to the nearest integer, halves up. -/
def specRoundDiv (num den : Nat) : Nat := (2 * num + den) / (2 * den)

/-- `clamp(x, lo, hi)` as written in the spec. -/
def specClamp (x lo hi : Nat) : Nat := min (max x lo) hi

/-- The spec's Debug target formula, with `round`. -/
def specTargetDebugRound (orig : Nat) : Nat :=
  specClamp (specRoundDiv (orig * 3) 5) 1 TARGET_TRIS_DEBUG_MAX

/-- Counterexample to C3 as stated: at `origTris = 3` the spec's rounded
Debug formula gives `clamp(round(1.8), 1, 8000) = 2`, but the code computes
`int(3 * 0.6) = 1` (truncation): the code's result differs from the claimed
formula. -/
theorem target_formula_counterexample_C3 :
    decide_target_triangles Cfg.debug 3 = 1 ∧
    specTargetDebugRound 3 = 2 ∧
    decide_target_triangles Cfg.debug 3 ≠ specTargetDebugRound 3 := by
  decide

/-- C3 (amended: `int()` truncates, so `round` is replaced by `floor`): for
every `origTris ≥ 1` the Debug target is `clamp(floor(origTris × 0.6), 1,
8000)` and the Release target is `max(1, clamp(floor(origTris × 0.25), 500,
3000))`; in particular `origTris = 10000` yields 6000 (Debug) and 2500
(Release), and `origTris = 1000` yields 500 (Release).  (At these three
inputs the floating-point products are exact integers, so floor and round
agree and the spec's numeric examples hold unchanged.) -/
theorem target_formula_C3 (orig : Nat) (h : 1 ≤ orig) :
    decide_target_triangles Cfg.debug orig =
      specClamp (orig * 3 / 5) 1 TARGET_TRIS_DEBUG_MAX ∧
    decide_target_triangles Cfg.release orig =
      max 1 (specClamp (orig / 4) TARGET_TRIS_RELEASE_MIN TARGET_TRIS_RELEASE_MAX) ∧
    decide_target_triangles Cfg.debug 10000 = 6000 ∧
    decide_target_triangles Cfg.release 10000 = 2500 ∧
    decide_target_triangles Cfg.release 1000 = 500 := by
  refine ⟨?_, ?_, by decide, by decide, by decide⟩
  · simp only [decide_target_triangles, specClamp, TARGET_TRIS_DEBUG_MAX]
    omega
  · simp only [decide_target_triangles, specClamp, TARGET_TRIS_RELEASE_MIN,
      TARGET_TRIS_RELEASE_MAX]
    omega

/-- Witness for the amended C3 at `origTris = 7`. -/
theorem target_formula_C3_witness :
    1 ≤ 7 ∧ decide_target_triangles Cfg.debug 7 =
      specClamp (7 * 3 / 5) 1 TARGET_TRIS_DEBUG_MAX :=
  ⟨by decide, (target_formula_C3 7 (by decide)).1⟩

/-! ## generate_meshshape.py — simplify_mesh (lines 140-176)

The mesh type is abstract (`M`): `simplify_mesh` only reads the triangle
count (`mesh.faces.shape[0]`, the `tris` argument).  `decimate m t` models
`m.simplify_quadratic_decimation(t)` and `cleanupPasses` the four chained
cleanup calls that follow it inside the same `try` block; `Except.error`
models a raised exception, caught by the `except` at line 174.  The Lean
function is total: every exception path lands on a returned mesh, which is
the embedded form of "simplification never fails the build". -/

def simplify_mesh {M E : Type} (cfg : Cfg) (tris : M → Nat)
    (decimate : M → Nat → Except E M) (cleanupPasses : M → Except E M)
    (mesh : M) : M :=
  let orig_tris := tris mesh
  if orig_tris = 0 then mesh
  else
    let target_tris := decide_target_triangles cfg orig_tris
    if orig_tris ≤ target_tris then mesh
    else
      match (do
        let s ← decimate mesh target_tris
        cleanupPasses s : Except E M) with
      | Except.error _ => mesh
      | Except.ok simpRes => if tris simpRes = 0 then mesh else simpRes

/-- C7: `simplify_mesh` never raises; it returns the input unchanged when the
original triangle count is within target, falls back to the pre-decimation
input when the decimate-then-cleanup pipeline raises or yields a mesh with
zero triangles, and otherwise returns the decimated, re-cleaned mesh. -/
theorem simplify_mesh_C7 {M E : Type} (cfg : Cfg) (tris : M → Nat)
    (decimate : M → Nat → Except E M) (cleanupPasses : M → Except E M)
    (mesh : M) :
    (tris mesh ≤ decide_target_triangles cfg (tris mesh) →
      simplify_mesh cfg tris decimate cleanupPasses mesh = mesh) ∧
    (∀ e, (do
        let s ← decimate mesh (decide_target_triangles cfg (tris mesh))
        cleanupPasses s : Except E M) = Except.error e →
      simplify_mesh cfg tris decimate cleanupPasses mesh = mesh) ∧
    (∀ s, (do
        let s ← decimate mesh (decide_target_triangles cfg (tris mesh))
        cleanupPasses s : Except E M) = Except.ok s →
      tris s = 0 →
      simplify_mesh cfg tris decimate cleanupPasses mesh = mesh) ∧
    (∀ s, ¬ tris mesh ≤ decide_target_triangles cfg (tris mesh) →
      (do
        let s ← decimate mesh (decide_target_triangles cfg (tris mesh))
        cleanupPasses s : Except E M) = Except.ok s →
      tris s ≠ 0 →
      simplify_mesh cfg tris decimate cleanupPasses mesh = s) := by
  refine ⟨fun h => ?_, fun e he => ?_, fun s hs h0 => ?_, fun s hgt hs h0 => ?_⟩
  · unfold simplify_mesh
    by_cases h0 : tris mesh = 0
    · simp [h0]
    · simp [h0, h]
  · unfold simplify_mesh
    by_cases h0 : tris mesh = 0
    · simp [h0]
    · by_cases h1 : tris mesh ≤ decide_target_triangles cfg (tris mesh)
      · simp [h0, h1]
      · simp [h0, h1, he]
  · unfold simplify_mesh
    by_cases hz : tris mesh = 0
    · simp [hz]
    · by_cases h1 : tris mesh ≤ decide_target_triangles cfg (tris mesh)
      · simp [hz, h1]
      · simp [hz, h1, hs, h0]
  · unfold simplify_mesh
    have hz : ¬ tris mesh = 0 := by omega
    simp [hz, hgt, hs, h0]

/-- Witness for C7: a 5-triangle mesh (`M = Nat`, `tris` the identity) in the
Debug profile decimates to the 3-triangle target and returns it. -/
theorem simplify_mesh_C7_witness :
    ¬ (5 : Nat) ≤ decide_target_triangles Cfg.debug 5 ∧
    simplify_mesh Cfg.debug (fun m : Nat => m)
      (fun _ t => (Except.ok t : Except Unit Nat)) (fun m => Except.ok m) 5 = 3 :=
  ⟨by decide,
    (simplify_mesh_C7 Cfg.debug (fun m : Nat => m)
        (fun _ t => (Except.ok t : Except Unit Nat)) (fun m => Except.ok m) 5).2.2.2
      3 (by decide) rfl (by decide)⟩

/-! ## Binary serialization (generate_convex.py lines 174-212,
generate_meshshape.py lines 198-229)

Bytes are `Nat` values below 256 (produced by `% 256`).  Every scalar the
writers emit goes through `struct.pack` little-endian: `"<I"` for `uint32`
counts and indices, `"<f"` for `float32` coordinates.  A vertex position is
modeled as the three 32-bit words actually written — the float32 bit
patterns after `astype(np.float32)` — so "to float32 precision" is exact
equality on these words.  The readers below follow the documented container
layouts (`CVXH` / `JMSH`) and are the spec-side half of the round-trip. -/

abbrev Pt32 : Type := Nat × Nat × Nat

/-- `struct.pack("<I", n)`: four little-endian bytes. -/
def u32le (n : Nat) : List Nat :=
  [n % 256, n / 256 % 256, n / 65536 % 256, n / 16777216 % 256]

/-- One packed vertex: three 32-bit words (x, y, z). -/
def encPt (q : Pt32) : List Nat := u32le q.1 ++ u32le q.2.1 ++ u32le q.2.2

/-- ASCII bytes of `b"CVXH"`. -/
def magicCVXH : List Nat := [67, 86, 88, 72]

/-- ASCII bytes of `b"JMSH"`. -/
def magicJMSH : List Nat := [74, 77, 83, 72]

/-- The per-hull record: vertex count, index count, positions, indices
(lines 199-210; the hull was clamped at line 197 before the counts are
taken). -/
def encodeHull (p : List Pt32) (f : List Nat) : List Nat :=
  u32le p.length ++ u32le f.length ++ concatMapL encPt p ++ concatMapL u32le f

/-- `write_convex_binary(hulls, dst)` (lines 174-212) as the byte string
written to `dst`: header, then each selected hull clamped and packed.
`none` models an exception escaping `clamp_hull_vertex_count` (nothing is
written). -/
def write_convex_binary (hulls : List (List Pt32 × List Nat)) : Option (List Nat) :=
  match mapO (fun h => Option.map (fun c => encodeHull c.1 c.2)
      (clamp_hull_vertex_count h.1 h.2 MAX_VERTICES_PER_HULL)) hulls with
  | none => none
  | some encs => some (magicCVXH ++ u32le 1 ++ u32le hulls.length ++ concatMapL id encs)

/-- `write_mesh_binary(verts, indices, dst)` (lines 198-229) as the byte
string written to `dst`. -/
def write_mesh_binary (verts : List Pt32) (indices : List Nat) : List Nat :=
  magicJMSH ++ u32le 1 ++ u32le verts.length ++ u32le indices.length ++
    concatMapL encPt verts ++ concatMapL u32le indices

/-- Read one little-endian `uint32`. -/
def readU32 : List Nat → Option (Nat × List Nat)
  | b0 :: b1 :: b2 :: b3 :: rest =>
    some (b0 + 256 * b1 + 65536 * b2 + 16777216 * b3, rest)
  | _ => none

/-- Read `n` consecutive records with the element reader `rd`. -/
def readN {α : Type} (rd : List Nat → Option (α × List Nat)) :
    Nat → List Nat → Option (List α × List Nat)
  | 0, bs => some ([], bs)
  | n + 1, bs =>
    match rd bs with
    | none => none
    | some (x, bs1) =>
      match readN rd n bs1 with
      | none => none
      | some (xs, bs2) => some (x :: xs, bs2)

/-- Read one vertex: three 32-bit words. -/
def readPt (bs : List Nat) : Option (Pt32 × List Nat) :=
  match readU32 bs with
  | none => none
  | some (x, bs1) =>
    match readU32 bs1 with
    | none => none
    | some (y, bs2) =>
      match readU32 bs2 with
      | none => none
      | some (z, bs3) => some ((x, y, z), bs3)

/-- Read one hull record per the documented `CVXH` layout. -/
def readHull (bs : List Nat) : Option ((List Pt32 × List Nat) × List Nat) :=
  match readU32 bs with
  | none => none
  | some (vcount, bs1) =>
    match readU32 bs1 with
    | none => none
    | some (icount, bs2) =>
      match readN readPt vcount bs2 with
      | none => none
      | some (pts, bs3) =>
        match readN readU32 icount bs3 with
        | none => none
        | some (idx, bs4) => some ((pts, idx), bs4)

/-- Consume an expected prefix (the magic bytes). -/
def dropPfx : List Nat → List Nat → Option (List Nat)
  | [], bs => some bs
  | m :: ms, b :: bs => if b = m then dropPfx ms bs else none
  | _ :: _, [] => none

/-- Read a whole `CVXH` container back per the documented layout. -/
def read_convex_binary (bs : List Nat) : Option (List (List Pt32 × List Nat)) :=
  match dropPfx magicCVXH bs with
  | none => none
  | some bs1 =>
    match readU32 bs1 with
    | none => none
    | some (ver, bs2) =>
      if ver = 1 then
        match readU32 bs2 with
        | none => none
        | some (cnt, bs3) =>
          match readN readHull cnt bs3 with
          | none => none
          | some (hulls, bs4) => if bs4.isEmpty then some hulls else none
      else none

/-- Read a whole `JMSH` container back per the documented layout. -/
def read_mesh_binary (bs : List Nat) : Option (List Pt32 × List Nat) :=
  match dropPfx magicJMSH bs with
  | none => none
  | some bs1 =>
    match readU32 bs1 with
    | none => none
    | some (ver, bs2) =>
      if ver = 1 then
        match readU32 bs2 with
        | none => none
        | some (vcount, bs3) =>
          match readU32 bs3 with
          | none => none
          | some (icount, bs4) =>
            match readN readPt vcount bs4 with
            | none => none
            | some (pts, bs5) =>
              match readN readU32 icount bs5 with
              | none => none
              | some (idx, bs6) => if bs6.isEmpty then some (pts, idx) else none
      else none

theorem readU32_u32le {n : Nat} (h : n < 2 ^ 32) (rest : List Nat) :
    readU32 (u32le n ++ rest) = some (n, rest) := by
  simp only [u32le, List.cons_append, List.nil_append, readU32]
  norm_num at h ⊢
  omega

theorem readN_concatMapL {α : Type} {rd : List Nat → Option (α × List Nat)}
    {enc : α → List Nat} :
    ∀ {l : List α}, (∀ x ∈ l, ∀ rest, rd (enc x ++ rest) = some (x, rest)) →
      ∀ rest, readN rd l.length (concatMapL enc l ++ rest) = some (l, rest) := by
  intro l
  induction l with
  | nil => intro _ rest; simp [concatMapL, readN]
  | cons x xs ih =>
    intro h rest
    have hx := h x (by simp) (concatMapL enc xs ++ rest)
    have hxs := ih (fun a ha => h a (by simp [ha])) rest
    simp only [List.length_cons, concatMapL, List.append_assoc, readN, hx, hxs]

theorem readPt_encPt {q : Pt32} (h : q.1 < 2 ^ 32 ∧ q.2.1 < 2 ^ 32 ∧ q.2.2 < 2 ^ 32)
    (rest : List Nat) : readPt (encPt q ++ rest) = some (q, rest) := by
  obtain ⟨x, y, z⟩ := q
  obtain ⟨hx, hy, hz⟩ := h
  simp only [encPt, List.append_assoc, readPt,
    readU32_u32le hx, readU32_u32le hy, readU32_u32le hz]

theorem dropPfx_append (ms : List Nat) (rest : List Nat) :
    dropPfx ms (ms ++ rest) = some rest := by
  induction ms with
  | nil => rfl
  | cons m ms ih => simp [dropPfx, ih]

/-- Per-hull bounds needed to re-read a packed hull: counts, coordinate
words and index values all fit in 32 bits. -/
def hullBounded (h : List Pt32 × List Nat) : Prop :=
  h.1.length < 2 ^ 32 ∧ (∀ q ∈ h.1, q.1 < 2 ^ 32 ∧ q.2.1 < 2 ^ 32 ∧ q.2.2 < 2 ^ 32) ∧
    h.2.length < 2 ^ 32 ∧ ∀ i ∈ h.2, i < 2 ^ 32

theorem readHull_encodeHull {p : List Pt32} {f : List Nat}
    (hb : hullBounded (p, f)) (rest : List Nat) :
    readHull (encodeHull p f ++ rest) = some ((p, f), rest) := by
  obtain ⟨hpl, hpt, hfl, hfv⟩ := hb
  have h1 : readN readPt p.length (concatMapL encPt p ++ (concatMapL u32le f ++ rest)) =
      some (p, concatMapL u32le f ++ rest) :=
    readN_concatMapL (fun x hx r => readPt_encPt (hpt x hx) r) _
  have h2 : readN readU32 f.length (concatMapL u32le f ++ rest) = some (f, rest) :=
    readN_concatMapL (fun x hx r => readU32_u32le (hfv x hx) r) _
  simp only [encodeHull, List.append_assoc, readHull,
    readU32_u32le hpl, readU32_u32le hfl, h1, h2]

theorem mapO_map_comp {α β γ : Type} {g : α → Option β} {e : β → γ} :
    ∀ {l : List α} {ys : List γ},
      mapO (fun x => Option.map e (g x)) l = some ys →
      ∃ zs, mapO g l = some zs ∧ ys = zs.map e := by
  intro l
  induction l with
  | nil =>
    intro ys h
    simp only [mapO] at h
    cases h
    exact ⟨[], rfl, rfl⟩
  | cons x xs ih =>
    intro ys h
    simp only [mapO] at h
    cases hgx : g x with
    | none =>
      simp only [hgx, Option.map_none'] at h
      cases h
    | some z =>
      simp only [hgx, Option.map_some'] at h
      cases hrec : mapO (fun a => Option.map e (g a)) xs with
      | none =>
        simp only [hrec] at h
        cases h
      | some ws =>
        simp only [hrec, Option.some.injEq] at h
        subst h
        rcases ih hrec with ⟨zs, hzs, hws⟩
        exact ⟨z :: zs, by simp [mapO, hgx, hzs], by simp [hws]⟩

theorem concatMapL_id_map {β γ : Type} (e : β → List γ) :
    ∀ zs : List β, concatMapL id (zs.map e) = concatMapL e zs := by
  intro zs
  induction zs with
  | nil => rfl
  | cons z zs ih => simp [concatMapL, ih]

theorem remapStep_some_extra {P : Type} {points : List P} {keep : List Nat}
    {facesKept : List (Nat × Nat × Nat)} {p' : List P} {f' : List Nat}
    (h : remapStep points keep facesKept = some (p', f')) :
    f'.length = 3 * facesKept.length ∧ ∀ q ∈ p', q ∈ points := by
  unfold remapStep at h
  split at h
  case isFalse => cases h
  case isTrue hall =>
    cases hmap : facesMappedOf points.length keep facesKept with
    | none => rw [hmap] at h; cases h
    | some mapped =>
      simp only [hmap] at h
      by_cases hnonneg : (mapped.all (0 ≤ ·)) = true
      case neg => rw [if_neg hnonneg] at h; cases h
      case pos =>
        rw [if_pos hnonneg] at h
        cases hsel : selectPts points keep with
        | none => simp only [hsel] at h; cases h
        | some newPts =>
          simp only [hsel, Option.some.injEq, Prod.mk.injEq] at h
          obtain ⟨hp, hf⟩ := h
          subst hp hf
          constructor
          · rw [List.length_map, mapO_some_length hmap, flat3_length]
          · intro q hq
            rcases mapO_some_mem hsel q hq with ⟨i, hi, hval⟩
            exact List.getElem?_mem hval

/-- Whatever `clamp_hull_vertex_count` returns stays within the input's
bounds: output vertices come from the input, and output indices are either
input index values (the unchanged branch) or below the 256 budget. -/
theorem clamp_some_bounds {P : Type} {points : List P} {ff : List Nat}
    {p' : List P} {f' : List Nat}
    (h : clamp_hull_vertex_count points ff MAX_VERTICES_PER_HULL = some (p', f')) :
    (∀ q ∈ p', q ∈ points) ∧ p'.length ≤ points.length ∧
      f'.length ≤ ff.length ∧ ∀ i ∈ f', i ∈ ff ∨ i < MAX_VERTICES_PER_HULL := by
  simp only [clamp_hull_vertex_count] at h
  by_cases h1 : points.length ≤ MAX_VERTICES_PER_HULL
  · rw [if_pos h1] at h
    injection h with h
    injection h with hp hf
    subst hp hf
    exact ⟨fun q hq => hq, le_refl _, le_refl _, fun i hi => Or.inl hi⟩
  · rw [if_neg h1] at h
    by_cases h3 : ff.length % 3 = 0
    · rw [if_neg (by simpa using h3)] at h
      by_cases h2 : (npUnique ff).length ≤ MAX_VERTICES_PER_HULL
      · rw [if_pos h2] at h
        have hb := remapStep_some h
        have he := remapStep_some_extra h
        refine ⟨he.2, ?_, ?_, fun i hi => Or.inr (lt_of_lt_of_le (hb.2 i hi) h2)⟩
        · rw [hb.1]; omega
        · rw [he.1]
          have := @chunk3_length_le ff
          omega
      · rw [if_neg h2] at h
        have hkl : ((npUnique ff).take MAX_VERTICES_PER_HULL).length ≤
            MAX_VERTICES_PER_HULL := by
          rw [List.length_take]; omega
        by_cases hE : ((chunk3 ff).filter
            (triInKeep ((npUnique ff).take MAX_VERTICES_PER_HULL))).isEmpty
        · rw [if_pos hE] at h
          cases hsel : selectPts points ((npUnique ff).take MAX_VERTICES_PER_HULL) with
          | none => rw [hsel] at h; cases h
          | some ps =>
            rw [hsel] at h
            injection h with h
            injection h with hp hf
            subst hp hf
            refine ⟨?_, ?_, by simp, by simp⟩
            · intro q hq
              rcases mapO_some_mem hsel q hq with ⟨i, hi, hval⟩
              exact List.getElem?_mem hval
            · rw [selectPts_some_length hsel]; omega
        · rw [if_neg hE] at h
          have hb := remapStep_some h
          have he := remapStep_some_extra h
          refine ⟨he.2, ?_, ?_, fun i hi => Or.inr (lt_of_lt_of_le (hb.2 i hi) hkl)⟩
          · rw [hb.1]; omega
          · rw [he.1]
            have h4 := List.length_filter_le
              (triInKeep ((npUnique ff).take MAX_VERTICES_PER_HULL)) (chunk3 ff)
            have := @chunk3_length_le ff
            omega
    · rw [if_pos (by simpa using h3)] at h
      cases h

theorem read_convex_of_parts {zs : List (List Pt32 × List Nat)} {n : Nat}
    (hn : n < 2 ^ 32) (hlen : zs.length = n)
    (hb : ∀ c ∈ zs, hullBounded c) :
    read_convex_binary (magicCVXH ++ u32le 1 ++ u32le n ++
      concatMapL (fun c => encodeHull c.1 c.2) zs) = some zs := by
  subst hlen
  have hrdN : readN readHull zs.length
      (concatMapL (fun c => encodeHull c.1 c.2) zs ++ []) = some (zs, []) :=
    readN_concatMapL (fun c hc r => readHull_encodeHull (hb c hc) r) []
  rw [List.append_nil] at hrdN
  simp only [read_convex_binary, List.append_assoc, dropPfx_append,
    readU32_u32le (show (1 : Nat) < 2 ^ 32 by norm_num),
    readU32_u32le hn, hrdN, List.isEmpty_nil]
  simp

theorem read_mesh_of_parts {verts : List Pt32} {indices : List Nat}
    (hvn : verts.length < 2 ^ 32)
    (hvb : ∀ q ∈ verts, q.1 < 2 ^ 32 ∧ q.2.1 < 2 ^ 32 ∧ q.2.2 < 2 ^ 32)
    (hin : indices.length < 2 ^ 32) (hiv : ∀ i ∈ indices, i < 2 ^ 32) :
    read_mesh_binary (write_mesh_binary verts indices) = some (verts, indices) := by
  have hrdI : readN readU32 indices.length (concatMapL u32le indices ++ []) =
      some (indices, []) :=
    readN_concatMapL (fun x hx r => readU32_u32le (hiv x hx) r) []
  rw [List.append_nil] at hrdI
  have hrdP : readN readPt verts.length
      (concatMapL encPt verts ++ concatMapL u32le indices) =
      some (verts, concatMapL u32le indices) :=
    readN_concatMapL (fun q hq r => readPt_encPt (hvb q hq) r) _
  simp only [write_mesh_binary, read_mesh_binary, List.append_assoc, dropPfx_append,
    readU32_u32le (show (1 : Nat) < 2 ^ 32 by norm_num),
    readU32_u32le hvn, readU32_u32le hin, hrdP, hrdI, List.isEmpty_nil]
  simp

/-- C6: writing then reading a `CVXH` container reproduces the exact hull
count and, per hull, the exact serialized (clamped) vertex words and index
arrays; writing then reading a `JMSH` container reproduces the vertex words
and index array exactly.  Both follow the documented little-endian layouts
with no padding.  The hypotheses are the numpy type invariants: counts,
`uint32` indices and `float32` coordinate words all fit in 32 bits. -/
theorem serialization_roundtrip_C6 :
    (∀ (hulls : List (List Pt32 × List Nat)) (bs : List Nat),
      (∀ h ∈ hulls, hullBounded h) → hulls.length < 2 ^ 32 →
      write_convex_binary hulls = some bs →
      ∃ clamped,
        mapO (fun h => clamp_hull_vertex_count h.1 h.2 MAX_VERTICES_PER_HULL)
          hulls = some clamped ∧
        clamped.length = hulls.length ∧
        read_convex_binary bs = some clamped) ∧
    (∀ (verts : List Pt32) (indices : List Nat),
      verts.length < 2 ^ 32 →
      (∀ q ∈ verts, q.1 < 2 ^ 32 ∧ q.2.1 < 2 ^ 32 ∧ q.2.2 < 2 ^ 32) →
      indices.length < 2 ^ 32 → (∀ i ∈ indices, i < 2 ^ 32) →
      read_mesh_binary (write_mesh_binary verts indices) = some (verts, indices)) := by
  constructor
  · intro hulls bs hb hn hw
    simp only [write_convex_binary] at hw
    cases henc : mapO (fun h => Option.map (fun c => encodeHull c.1 c.2)
        (clamp_hull_vertex_count h.1 h.2 MAX_VERTICES_PER_HULL)) hulls with
    | none => rw [henc] at hw; cases hw
    | some encs =>
      rw [henc] at hw
      injection hw with hw
      rcases mapO_map_comp henc with ⟨clamped, hclamp, hencs⟩
      refine ⟨clamped, hclamp, mapO_some_length hclamp, ?_⟩
      have hcb : ∀ c ∈ clamped, hullBounded c := by
        intro c hc
        rcases mapO_some_mem hclamp c hc with ⟨h, hh, hch⟩
        obtain ⟨p', f'⟩ := c
        have hbnd := clamp_some_bounds hch
        rcases hb h hh with ⟨hl1, hq1, hl2, hi2⟩
        refine ⟨?_, ?_, ?_, ?_⟩
        · show p'.length < 2 ^ 32
          have := hbnd.2.1
          omega
        · show ∀ q ∈ p', q.1 < 2 ^ 32 ∧ q.2.1 < 2 ^ 32 ∧ q.2.2 < 2 ^ 32
          intro q hq
          exact hq1 q (hbnd.1 q hq)
        · show f'.length < 2 ^ 32
          have := hbnd.2.2.1
          omega
        · show ∀ i ∈ f', i < 2 ^ 32
          intro i hi
          rcases hbnd.2.2.2 i hi with hmem | hlt
          · exact hi2 i hmem
          · have : MAX_VERTICES_PER_HULL < 2 ^ 32 := by norm_num [MAX_VERTICES_PER_HULL]
            omega
      rw [← hw, hencs, concatMapL_id_map]
      exact read_convex_of_parts hn (mapO_some_length hclamp) hcb
  · intro verts indices hvn hvb hin hiv
    exact read_mesh_of_parts hvn hvb hin hiv

/-- Witness for C6: a one-hull container (an in-budget triangle hull) and a
one-triangle mesh, each round-tripping through its binary container. -/
theorem serialization_roundtrip_C6_witness :
    (∃ bs, write_convex_binary [([(1, 2, 3), (4, 5, 6), (7, 8, 9)], [0, 1, 2])] =
        some bs ∧
      ∃ clamped,
        mapO (fun h => clamp_hull_vertex_count h.1 h.2 MAX_VERTICES_PER_HULL)
          [([(1, 2, 3), (4, 5, 6), (7, 8, 9)], [0, 1, 2])] = some clamped ∧
        clamped.length = 1 ∧ read_convex_binary bs = some clamped) ∧
    read_mesh_binary (write_mesh_binary [(10, 20, 30)] [0, 0, 0]) =
      some ([(10, 20, 30)], [0, 0, 0]) :=
  ⟨⟨_, rfl,
    serialization_roundtrip_C6.1 [([(1, 2, 3), (4, 5, 6), (7, 8, 9)], [0, 1, 2])] _
      (by
        intro h hh
        fin_cases hh
        exact ⟨by decide, by decide, by decide, by decide⟩)
      (by decide) rfl⟩,
    serialization_roundtrip_C6.2 [(10, 20, 30)] [0, 0, 0]
      (by decide) (by decide) (by decide) (by decide)⟩
